import Mathlib

/-!
Verification of the in-memory lexical search toolkit (inverted index with
posting-list merging, suffix array with phrase-prefix search, trie-driven
string finder).  Python source files are shallowly embedded as executable
Lean definitions; text is `List Char` (ordered lexicographically by code
point, exactly as Python compares `str` values), machine integers are `Nat`
or `Int`.  Python's stable `sorted`/`list.sort` is embedded as
`List.insertionSort` with the corresponding key order: both are stable sorts
for the same total preorder, hence produce identical output.  Python `dict`
insertion-order semantics are embedded as association lists grown at the
tail.  Components of the repository that are only consumed here
(Posting/PostingList, Dictionary, Normalizer, Tokenizer, Sieve, Trie) are
modelled from the spec, as flagged on their definitions.
-/

namespace In3120

/-- Text is a list of characters; Python compares strings lexicographically
by code point, which is exactly the `LinearOrder` on `List Char`. -/
abbrev Str := List Char

/-- Conversion from a Lean string literal to the character-list embedding. -/
def str (s : String) : Str := s.toList

/-- Modelled from the spec: `Posting` (posting.py is not part of the sources)
is a pair of a document identifier and a term frequency. -/
structure Posting where
  document_id : Nat
  term_frequency : Nat
deriving DecidableEq, Repr

/-- The document ids of a posting sequence, in order. -/
def docIds (l : List Posting) : List Nat := l.map Posting.document_id

namespace PostingsMerger

/-- Embedding of `PostingsMerger.intersection` (postingsmerger.py, lines
19-38): two-pointer AND merge of two posting sequences sorted by document
id; on a match it emits the smaller of the two term frequencies. -/
def intersection : List Posting → List Posting → List Posting
  | posting1 :: rest1, posting2 :: rest2 =>
    if posting1.document_id = posting2.document_id then
      ⟨posting1.document_id, min posting1.term_frequency posting2.term_frequency⟩ ::
        intersection rest1 rest2
    else if posting1.document_id < posting2.document_id then
      intersection rest1 (posting2 :: rest2)
    else
      intersection (posting1 :: rest1) rest2
  | _, _ => []
termination_by l1 l2 => l1.length + l2.length

/-- Embedding of `PostingsMerger.union` (postingsmerger.py, lines 40-61):
two-pointer OR merge; on a match it emits the larger of the two term
frequencies, and once either input is exhausted it passes the remaining
postings of the other input through unchanged. -/
def union : List Posting → List Posting → List Posting
  | posting1 :: rest1, posting2 :: rest2 =>
    if posting1.document_id = posting2.document_id then
      ⟨posting1.document_id, max posting1.term_frequency posting2.term_frequency⟩ ::
        union rest1 rest2
    else if posting1.document_id < posting2.document_id then
      posting1 :: union rest1 (posting2 :: rest2)
    else
      posting2 :: union (posting1 :: rest1) rest2
  | posting1 :: rest1, [] => posting1 :: union rest1 []
  | [], posting2 :: rest2 => posting2 :: union [] rest2
  | [], [] => []
termination_by l1 l2 => l1.length + l2.length

end PostingsMerger

/-! Tokenizer and normalizer.  Both collaborators are consumed through the
narrow interfaces of spec section 6; their implementations are not in the
sources. -/

/-- Modelled from the spec: the tokenizer splits a text buffer into maximal
runs of non-space characters, reporting each token together with its
`[start, end)` character range.  The accumulator `cur` carries the start
offset and the (reversed) characters of the token currently being read. -/
def tokenizeGo : List Char → Nat → Option (Nat × Str) → List (Str × (Nat × Nat))
  | [], _, none => []
  | [], i, some (st, run) => [(run.reverse, (st, i))]
  | c :: cs, i, none =>
    if c = ' ' then tokenizeGo cs (i + 1) none
    else tokenizeGo cs (i + 1) (some (i, [c]))
  | c :: cs, i, some (st, run) =>
    if c = ' ' then (run.reverse, (st, i)) :: tokenizeGo cs (i + 1) none
    else tokenizeGo cs (i + 1) (some (st, c :: run))

/-- Modelled from the spec: `tokens(text)`, the sequence of
(token string, char range) pairs of a buffer. -/
def tokens (buffer : Str) : List (Str × (Nat × Nat)) := tokenizeGo buffer 0 none

/-- Modelled from the spec: `strings(text)`, the token strings of a buffer. -/
def strings (buffer : Str) : List Str := (tokens buffer).map Prod.fst

/-- Modelled from the spec: `ranges(text)`, the token char ranges of a buffer. -/
def ranges (buffer : Str) : List (Nat × Nat) := (tokens buffer).map Prod.snd

/-- Modelled from the spec: `normalize(text)` performs case folding.  Width
and accent canonicalization are modelled as the identity. -/
def normalize (buffer : Str) : Str := buffer.map Char.toLower

/-- Joining a list of token strings with a single space character, the
Python idiom `" ".join(...)`. -/
def joinSpace (parts : List Str) : Str := List.intercalate [' '] parts

/-! Inverted index (invertedindex.py).  A corpus is embedded as a list of
documents; each document is a pair of its `document_id` and the list of the
values of the configured fields, in field order, so that iterating
`for field in fields: get_terms(document[field])` is iterating that list. -/

/-- Embedding of `InMemoryInvertedIndex.get_terms` (invertedindex.py, lines
104-105): tokenize the buffer and normalize each token string. -/
def get_terms (buffer : Str) : List Str := (strings buffer).map normalize

/-- Embedding of the accumulation loop of `__build_index` (invertedindex.py,
lines 82-87): one `(term, document_id)` pair per term occurrence, for each
document, for each configured field, in corpus iteration order. -/
def buildTokenSequence (docs : List (Nat × List Str)) : List (Str × Nat) :=
  docs.flatMap fun doc =>
    (doc.2.flatMap fun fieldText => get_terms fieldText).map fun term => (term, doc.1)

/-- Embedding of `sorted(token_sequence, key=lambda x: x[0])`
(invertedindex.py, line 89): a stable sort by the term component only. -/
def sortedTokenSequence (docs : List (Nat × List Str)) : List (Str × Nat) :=
  (buildTokenSequence docs).insertionSort fun a b => a.1 ≤ b.1

/-- Embedding of the grouping loop of `__build_index` (invertedindex.py,
lines 90-94) for one `(term, document_id)` pair: append the document id to
the term's group, creating the group at the tail on the term's first sight
(Python dicts preserve insertion order). -/
def addOccurrence (acc : List (Str × List Nat)) (term : Str) (docId : Nat) :
    List (Str × List Nat) :=
  if acc.any fun p => p.1 = term then
    acc.map fun p => if p.1 = term then (p.1, p.2 ++ [docId]) else p
  else
    acc ++ [(term, [docId])]

/-- Embedding of the grouping loop of `__build_index` (invertedindex.py,
lines 90-94): fold the sorted token sequence into the `postings` mapping. -/
def groupPostings (l : List (Str × Nat)) : List (Str × List Nat) :=
  l.foldl (fun acc td => addOccurrence acc td.1 td.2) []

/-- Embedding of `collections.Counter(document_ids).items()` used at
invertedindex.py line 99: occurrence counts keyed by document id, keys in
first-occurrence order (Counter is an insertion-ordered dict). -/
def bump (acc : List (Nat × Nat)) (d : Nat) : List (Nat × Nat) :=
  if acc.any fun p => p.1 = d then
    acc.map fun p => if p.1 = d then (p.1, p.2 + 1) else p
  else
    acc ++ [(d, 1)]

/-- Occurrence counts of a list of document ids, keys in first-occurrence
order; see `bump`. -/
def countsInOrder (l : List Nat) : List (Nat × Nat) := l.foldl bump []

/-- Modelled from the spec: `InMemoryDictionary.add_if_absent`
(dictionary.py is not part of the sources) assigns dense integer term ids
in insertion order. -/
def add_if_absent (dict : List (Str × Nat)) (term : Str) : List (Str × Nat) :=
  if dict.any fun p => p.1 = term then dict else dict ++ [(term, dict.length)]

/-- The in-memory inverted index: the term dictionary and one posting list
per term id.  A `PostingList` (postinglist.py is not part of the sources)
is modelled from the spec as the list of its postings in append order. -/
structure InMemoryInvertedIndex where
  dictionary : List (Str × Nat)
  posting_lists : List (List Posting)
deriving DecidableEq, Repr

/-- Embedding of `InMemoryInvertedIndex.__build_index` (invertedindex.py,
lines 81-102): accumulate and stably sort the token sequence by term, group
document ids by term, then for each term in group order register the term
in the dictionary and materialize one posting list from the per-document
occurrence counts.  Terms are registered in the same order in which posting
lists are appended, so term id `i` indexes posting list `i`. -/
def build_index (docs : List (Nat × List Str)) : InMemoryInvertedIndex :=
  let grouped := groupPostings (sortedTokenSequence docs)
  { dictionary := grouped.foldl (fun d p => add_if_absent d p.1) []
    posting_lists := grouped.map fun p => (countsInOrder p.2).map fun dc => ⟨dc.1, dc.2⟩ }

/-- Modelled from the spec: `InMemoryDictionary.get_term_id`, a lookup in
the term/id mapping returning `none` for unknown terms. -/
def get_term_id (index : InMemoryInvertedIndex) (term : Str) : Option Nat :=
  (index.dictionary.find? fun p => p.1 = term).map Prod.snd

/-- The terms present in the index's dictionary. -/
def vocabulary (index : InMemoryInvertedIndex) : List Str :=
  index.dictionary.map Prod.fst

/-- Embedding of `InMemoryInvertedIndex.get_postings_iterator`
(invertedindex.py, lines 107-111): an empty iterator for out-of-vocabulary
terms, otherwise a fresh iterator over the term's posting list. -/
def get_postings_iterator (index : InMemoryInvertedIndex) (term : Str) :
    List Posting :=
  match get_term_id index term with
  | none => []
  | some term_id => index.posting_lists.getD term_id []

/-- Embedding of `InMemoryInvertedIndex.get_document_frequency`
(invertedindex.py, lines 113-116): 0 for out-of-vocabulary terms, otherwise
the length of the term's posting list. -/
def get_document_frequency (index : InMemoryInvertedIndex) (term : Str) : Nat :=
  match get_term_id index term with
  | none => 0
  | some term_id => (index.posting_lists.getD term_id []).length

/-! Suffix array (suffixarray.py).  The corpus is embedded as for the
inverted index: a list of `(document_id, field values)` pairs. -/

/-- Embedding of `SuffixArray.__normalize` (suffixarray.py, lines 55-63):
canonicalize and case-fold the buffer (canonicalization is modelled as the
identity, see `normalize`), then re-join its token strings with single
spaces. -/
def normalizeSA (buffer : Str) : Str := joinSpace (strings (normalize buffer))

/-- Embedding of the haystack construction (suffixarray.py, lines 40-41):
one `(document_id, normalized joined fields)` pair per document, in corpus
iteration order. -/
def buildHaystack (docs : List (Nat × List Str)) : List (Nat × Str) :=
  docs.map fun doc => (doc.1, normalizeSA (joinSpace doc.2))

/-- Embedding of the suffix-pointer comprehension (suffixarray.py, lines
42-43): one `(idx, range start)` pair per token range of each haystack
entry, where `idx` is the first component of the haystack entry, i.e. the
document identifier. -/
def buildSuffixesUnsorted (haystack : List (Nat × Str)) : List (Nat × Nat) :=
  haystack.flatMap fun e => (ranges e.2).map fun r => (e.1, r.1)

/-- Embedding of `SuffixArray.__suffix_of_doc` (suffixarray.py, lines
46-47): the suffix of the haystack entry indexed by the pointer's first
component, starting at the pointer's offset.  Python raises `IndexError`
out of range; the embedding totalizes with a default entry, and the
in-range theorems below never rely on the default. -/
def suffix_of_doc (haystack : List (Nat × Str)) (sfx : Nat × Nat) : Str :=
  (haystack.getD sfx.1 (0, [])).2.drop sfx.2

/-- Embedding of `SuffixArray.__doc_id_from_suffix` (suffixarray.py, lines
88-89): the stored document id of the haystack entry indexed by the
pointer's first component. -/
def doc_id_from_suffix (haystack : List (Nat × Str)) (sfx : Nat × Nat) : Nat :=
  (haystack.getD sfx.1 (0, [])).1

/-- Embedding of `self.__suffixes.sort(key=...)` (suffixarray.py, line 44):
stable sort of the suffix pointers by the pointed-to suffix string. -/
def buildSuffixes (haystack : List (Nat × Str)) : List (Nat × Nat) :=
  (buildSuffixesUnsorted haystack).insertionSort fun a b =>
    suffix_of_doc haystack a ≤ suffix_of_doc haystack b

/-- The built suffix array: the haystack and the sorted suffix pointers. -/
structure SuffixArray where
  haystack : List (Nat × Str)
  suffixes : List (Nat × Nat)
deriving DecidableEq, Repr

/-- Embedding of `SuffixArray.__build_suffix_array` (suffixarray.py, lines
35-44). -/
def suffixArrayFromDocs (docs : List (Nat × List Str)) : SuffixArray :=
  { haystack := buildHaystack docs
    suffixes := buildSuffixes (buildHaystack docs) }

/-- The suffix strings of the array in sorted order.  The binary search of
the code touches `self.__suffixes[middle]` only through
`__suffix_of_doc`, so it is embedded as a search over this string list. -/
def suffixStrings (sa : SuffixArray) : List Str :=
  sa.suffixes.map (suffix_of_doc sa.haystack)

/-- Embedding of the loop of `SuffixArray.__binary_search` (suffixarray.py,
lines 75-86): `middle` is `math.floor((left+right)/2)`, which for the
non-negative sums arising inside the loop coincides with integer `/` on
`Int`; an exact hit returns `middle`, otherwise the loop narrows to the
insertion point and returns `left`. -/
def bsearchGo (arr : List Str) (needle : Str) (left right : Int) : Int :=
  if left ≤ right then
    let middle := (left + right) / 2
    let suffix := arr.getD middle.toNat []
    if suffix < needle then bsearchGo arr needle (middle + 1) right
    else if needle < suffix then bsearchGo arr needle left (middle - 1)
    else middle
  else left
termination_by (right + 1 - left).toNat
decreasing_by
  all_goals omega

/-- Embedding of `SuffixArray.__binary_search` (suffixarray.py, lines
65-86): enter the loop with `left = 0`, `right = len - 1`. -/
def binary_search (arr : List Str) (needle : Str) : Nat :=
  (bsearchGo arr needle 0 ((arr.length : Int) - 1)).toNat

/-- Embedding of the forward scan of `SuffixArray.evaluate`
(suffixarray.py, lines 118-129): while the suffix at the cursor starts with
the normalized query, count one occurrence for its document (insertion
ordered, see `bump`) and advance; stop at the first mismatch or at the end
of the array. -/
def collectLoop (sa : SuffixArray) (q : Str) (idx : Nat)
    (doc_dict : List (Nat × Nat)) : List (Nat × Nat) :=
  if idx < sa.suffixes.length then
    let suffix_data := sa.suffixes.getD idx (0, 0)
    if q.isPrefixOf (suffix_of_doc sa.haystack suffix_data) then
      collectLoop sa q (idx + 1)
        (bump doc_dict (doc_id_from_suffix sa.haystack suffix_data))
    else doc_dict
  else doc_dict
termination_by sa.suffixes.length - idx

/-- Modelled from the spec: the `Sieve` (sieve.py is not part of the
sources) retains the top-`k` sifted `(score, item)` pairs and returns them
best-first; ties are broken arbitrarily but deterministically.  The model
sorts the sifted pairs stably by score, descending, and keeps the first
`k`. -/
def sieveWinners (k : Nat) (entries : List (Nat × Nat)) : List (Nat × Nat) :=
  (((entries.map fun p => (p.2, p.1)).insertionSort fun a b => b.1 ≤ a.1).take k)

/-- The per-document occurrence counts that `SuffixArray.evaluate` collects
before ranking (suffixarray.py, lines 107-129): the `doc_dict` of the code,
or `[]` on the early exits (empty normalized query, binary search past the
end). -/
def doc_counts (sa : SuffixArray) (query : Str) : List (Nat × Nat) :=
  let normalized_query := normalizeSA query
  if normalized_query.length = 0 then []
  else
    let idx_of_needle := binary_search (suffixStrings sa) normalized_query
    if sa.suffixes.length ≤ idx_of_needle then []
    else collectLoop sa normalized_query idx_of_needle []

/-- Embedding of `SuffixArray.evaluate` (suffixarray.py, lines 91-140).  A
result is a `(score, document_id)` pair; the code wraps the id into the
corpus document.  With a `hit_count` option the counts go through the
Sieve; without one they are passed through as
`((score, doc_id) for doc_id, score in doc_dict.items())`, i.e. in dict
insertion order. -/
def evaluate (sa : SuffixArray) (query : Str) (hit_count : Option Nat) :
    List (Nat × Nat) :=
  let normalized_query := normalizeSA query
  if normalized_query.length = 0 then []
  else
    let idx_of_needle := binary_search (suffixStrings sa) normalized_query
    if sa.suffixes.length ≤ idx_of_needle then []
    else
      let doc_dict := collectLoop sa normalized_query idx_of_needle []
      match hit_count with
      | some k => sieveWinners k doc_dict
      | none => doc_dict.map fun p => (p.2, p.1)

/-! Trie and StringFinder (stringfinder.py).  The Trie collaborator
(trie.py is not part of the sources) is modelled from the spec. -/

/-- Modelled from the spec: a trie node owns a mapping from characters to
child nodes and an "is final" flag. -/
inductive Trie where
  | node (children : List (Char × Trie)) (is_final : Bool)
deriving Repr

/-- The empty trie: no edges, not final. -/
def Trie.empty : Trie := .node [] false

/-- The child edges of a trie node. -/
def Trie.childList : Trie → List (Char × Trie)
  | .node children _ => children

/-- Modelled from the spec: `is_final`, whether the path to this node
spells a complete dictionary entry. -/
def Trie.isFinal : Trie → Bool
  | .node _ f => f

/-- Modelled from the spec: consuming one character from a node, returning
the child node or "no such edge". -/
def Trie.consume1 (t : Trie) (c : Char) : Option Trie :=
  (t.childList.find? fun p => p.1 = c).map Prod.snd

/-- Modelled from the spec: `consume` of a whole string walks one character
at a time. -/
def Trie.consume : Trie → Str → Option Trie
  | t, [] => some t
  | t, c :: rest =>
    match t.consume1 c with
    | none => none
    | some t1 => t1.consume rest

/-- Modelled from the spec: `add` of one dictionary string (its tokens
already joined by single spaces): create the missing edges along the path
and mark the last node final. -/
def Trie.insert : Trie → Str → Trie
  | .node children _, [] => .node children true
  | .node children f, c :: rest =>
    if children.any fun p => p.1 = c then
      .node (children.map fun p => if p.1 = c then (p.1, p.2.insert rest) else p) f
    else
      .node (children ++ [(c, Trie.empty.insert rest)]) f
termination_by _ s => s.length

/-- The per-character walk of one active state through one token
(stringfinder.py, lines 45-53): consume the token's characters one at a
time, counting how many times a final node is reached (each reach yields
one match in `scan`); the second component is the reached node if the walk
survived the whole token. -/
def walkChars : Trie → Str → Nat × Option Trie
  | t, [] => (0, some t)
  | t, c :: rest =>
    match t.consume1 c with
    | none => (0, none)
    | some t1 =>
      let r := walkChars t1 rest
      ((if t1.isFinal then 1 else 0) + r.1, r.2)

/-- The separator transition after a surviving walk (stringfinder.py,
lines 55-58): `trie.consume(" ")`, keeping the state alive when the trie
has a space edge.  The list holds the continuation node when it exists. -/
def sepContinue (o : Option Trie) : List Trie :=
  match o with
  | none => []
  | some t1 =>
    match t1.consume [' '] with
    | none => []
    | some t2 => [t2]

/-- One active state's full processing for one token (stringfinder.py,
lines 45-58): the walk of the token's characters, then the separator
transition of the surviving node. -/
def stateStep (t : Trie) (tok : Str) : Nat × List Trie :=
  ((walkChars t tok).1, sepContinue (walkChars t tok).2)

/-- Every trie node has positive size.  Stated as a `def` of the
proposition; it feeds the termination argument of `innerLoop`. -/
def trie_sizeOf_pos : ∀ t : Trie, 0 < sizeOf t := by
  intro t
  cases t with
  | node ch f =>
    simp only [Trie.node.sizeOf_spec]
    omega

/-- Consuming an edge strictly descends into the children, so the reached
node is structurally smaller.  Stated as a `def` of the proposition; it
feeds the termination argument of `innerLoop`. -/
def trie_consume1_sizeOf :
    ∀ (t : Trie) (c : Char) (t' : Trie), t.consume1 c = some t' → sizeOf t' < sizeOf t := by
  intro t c t' h
  cases t with
  | node children f =>
    simp only [Trie.consume1, Trie.childList, Option.map_eq_some'] at h
    obtain ⟨p, hp, rfl⟩ := h
    have hmem := List.mem_of_find?_eq_some hp
    have h1 := List.sizeOf_lt_of_mem hmem
    have h2 : sizeOf p.2 < sizeOf p := by
      obtain ⟨a, b⟩ := p
      simp only [Prod.mk.sizeOf_spec]
      omega
    simp only [Trie.node.sizeOf_spec]
    omega

/-- A surviving walk never ascends: the reached node is no larger than the
start node.  Stated as a `def` of the proposition; it feeds the
termination argument of `innerLoop`. -/
def walkChars_sizeOf :
    ∀ (tok : Str) (t : Trie) (t1 : Trie),
      (walkChars t tok).2 = some t1 → sizeOf t1 ≤ sizeOf t := by
  intro tok
  induction tok with
  | nil =>
    intro t t1 h
    simp only [walkChars, Option.some.injEq] at h
    subst h
    exact le_refl _
  | cons c rest ih =>
    intro t t1 h
    cases hc : t.consume1 c with
    | none =>
      simp only [walkChars, hc] at h
      exact Option.noConfusion h
    | some tmid =>
      simp only [walkChars, hc] at h
      have h1 := trie_consume1_sizeOf t c tmid hc
      have h2 := ih tmid t1 h
      omega

/-- The node reached by consuming one separator character is strictly
smaller.  Stated as a `def` of the proposition; it feeds the termination
argument of `innerLoop`. -/
def consumeSep_sizeOf :
    ∀ (t1 t2 : Trie), t1.consume [' '] = some t2 → sizeOf t2 < sizeOf t1 := by
  intro t1 t2 h
  cases hc1 : t1.consume1 ' ' with
  | none =>
    simp only [Trie.consume, hc1] at h
    exact Option.noConfusion h
  | some tm =>
    simp only [Trie.consume, hc1, Option.some.injEq] at h
    subst h
    exact trie_consume1_sizeOf t1 ' ' _ hc1

/-- The continuation list of a state step is empty or a single node that
is strictly smaller than the state's node.  Stated as a `def` of the
proposition; it feeds the termination argument of `innerLoop`. -/
def stateStep_sizeOf :
    ∀ (t : Trie) (tok : Str), (stateStep t tok).2 = [] ∨
      ∃ t2, (stateStep t tok).2 = [t2] ∧ sizeOf t2 < sizeOf t := by
  intro t tok
  cases hw : (walkChars t tok).2 with
  | none =>
    left
    simp only [stateStep, hw, sepContinue]
  | some t1 =>
    have h1 : sizeOf t1 ≤ sizeOf t := walkChars_sizeOf tok t t1 hw
    cases hc : t1.consume [' '] with
    | none =>
      left
      simp only [stateStep, hw, sepContinue, hc]
    | some t2 =>
      right
      refine ⟨t2, ?_, ?_⟩
      · simp only [stateStep, hw, sepContinue, hc]
      · have h2 := consumeSep_sizeOf t1 t2 hc
        omega

/-- An active state of the scan: the trie pointer and the match start
offset. -/
abbrev ScanState := Trie × Nat

/-- A reported match: the reconstructed match string and its
`[start, end)` range in the buffer. -/
abbrev ScanMatch := Str × (Nat × Nat)

/-- The reconstructed match text of stringfinder.py line 53:
`" ".join(self.__tokenizer.strings(buffer[start:stop]))`. -/
def matchText (buffer : Str) (start stop : Nat) : Str :=
  joinSpace (strings ((buffer.drop start).take (stop - start)))

/-- Embedding of the `for state in states` loop of `StringFinder.scan`
(stringfinder.py, lines 44-61) for one token, with Python's exact
list-mutation-during-iteration semantics: the cursor walks the list by
position while the body appends the separator continuation at the tail
(`states.append`, visited later in the same pass) and, when no final node
was reached, removes the current state (`states.remove`), which shifts the
list left so the element right after the removed one is skipped for this
token.  `acc` is the already-visited prefix, `todo` the part at and after
the cursor; the result is the yields of the pass and the final states
list. -/
def innerLoop (buffer tok : Str) (rngEnd : Nat) :
    List ScanState → List ScanState → List ScanMatch × List ScanState
  | acc, [] => ([], acc)
  | acc, s :: rest =>
    let hits := (stateStep s.1 tok).1
    let app := (stateStep s.1 tok).2.map fun t2 => ((t2, s.2) : ScanState)
    let yields := List.replicate hits ((matchText buffer s.2 rngEnd, (s.2, rngEnd)) : ScanMatch)
    if 0 < hits then
      let r := innerLoop buffer tok rngEnd (acc ++ [s]) (rest ++ app)
      (yields ++ r.1, r.2)
    else
      match rest with
      | [] => (yields, acc ++ app)
      | b :: rest2 =>
        let r := innerLoop buffer tok rngEnd (acc ++ [b]) (rest2 ++ app)
        (yields ++ r.1, r.2)
termination_by _ todo => (todo.map fun s => sizeOf s.1).sum
decreasing_by
  · have hpos : 0 < sizeOf s.1 := trie_sizeOf_pos s.1
    rcases stateStep_sizeOf s.1 tok with h | ⟨t2, heq, hlt⟩
    · simp only [h, List.map_nil, List.append_nil, List.map_cons, List.sum_cons]
      omega
    · simp only [heq, List.map_cons, List.map_nil, List.map_append, List.sum_append,
        List.sum_cons, List.sum_nil]
      omega
  · have hpos : 0 < sizeOf s.1 := trie_sizeOf_pos s.1
    have hposb : 0 < sizeOf b.1 := trie_sizeOf_pos b.1
    rcases stateStep_sizeOf s.1 tok with h | ⟨t2, heq, hlt⟩
    · simp only [h, List.map_nil, List.append_nil, List.map_cons, List.sum_cons]
      omega
    · simp only [heq, List.map_cons, List.map_nil, List.map_append, List.sum_append,
        List.sum_cons, List.sum_nil]
      omega

/-- Embedding of the token loop of `StringFinder.scan` (stringfinder.py,
lines 43-69): per token, run the active-state pass (`innerLoop`), then seed
a brand-new attempt from the trie root: consume the whole token, yield a
match on a final node, and on a successful separator transition append a
continuation state for the next token. -/
def scanTokens (tr : Trie) (buffer : Str) :
    List (Str × (Nat × Nat)) → List ScanState → List ScanMatch
  | [], _ => []
  | (tok, rng) :: moreTokens, states =>
    let r := innerLoop buffer tok rng.2 [] states
    match tr.consume tok with
    | none => r.1 ++ scanTokens tr buffer moreTokens r.2
    | some t =>
      let seedYields := if t.isFinal then [((tok, rng) : ScanMatch)] else []
      match t.consume [' '] with
      | none => r.1 ++ seedYields ++ scanTokens tr buffer moreTokens r.2
      | some t1 =>
        r.1 ++ seedYields ++ scanTokens tr buffer moreTokens (r.2 ++ [(t1, rng.1)])

/-- Embedding of `StringFinder.scan` (stringfinder.py, lines 27-69). -/
def scan (tr : Trie) (buffer : Str) : List ScanMatch :=
  scanTokens tr buffer (tokens buffer) []

/-! Concrete instances used by examples, witnesses and counterexamples. -/

/-- The two-document corpus of the inverted-index example (spec section 8
and my-stuff/exploration_a.py), field `body` only. -/
def docs06 : List (Nat × List Str) :=
  [(0, [str "this is a Test"]), (1, [str "test TEST prøve"])]

/-- A two-document corpus iterated in decreasing document-id order. -/
def docsC2 : List (Nat × List Str) := [(1, [str "a"]), (0, [str "a"])]

/-- A corpus on which the suffix scan meets the document with the smaller
occurrence count first. -/
def docs3 : List (Nat × List Str) := [(0, [str "c a"]), (1, [str "a b a b"])]

/-- A corpus whose suffix array contains two suffixes equal to `"a"`
followed by `"a b"`. -/
def docsC4 : List (Nat × List Str) :=
  [(0, [str "a"]), (1, [str "a"]), (2, [str "a b"])]

/-- The trie of the StringFinder example: dictionary strings `"norsk"` and
`"norsk ørret"`. -/
def trie7 : Trie := (Trie.empty.insert (str "norsk")).insert (str "norsk ørret")

/-- The buffer of the StringFinder example. -/
def buf7 : Str := str "en norsk ørret fra romerike"

/-! Theorems.  First the posting-list merger (claims C1 and C9). -/

theorem docIds_nil : docIds [] = [] := rfl

theorem docIds_cons (p : Posting) (r : List Posting) :
    docIds (p :: r) = p.document_id :: docIds r := rfl

namespace PostingsMerger

theorem mem_docIds_intersection :
    ∀ l1 l2 : List Posting,
      List.Sorted (· < ·) (docIds l1) → List.Sorted (· < ·) (docIds l2) →
      ∀ d, d ∈ docIds (intersection l1 l2) ↔ d ∈ docIds l1 ∧ d ∈ docIds l2 := by
  intro l1 l2
  induction l1, l2 using intersection.induct with
  | case1 posting1 rest1 posting2 rest2 heq ih =>
    intro h1 h2 d
    rw [docIds_cons] at h1 h2
    have ih' := ih h1.of_cons h2.of_cons d
    simp only [intersection, if_pos heq, docIds_cons, List.mem_cons, ih']
    constructor
    · rintro (rfl | ⟨hd1, hd2⟩)
      · exact ⟨Or.inl rfl, Or.inl heq⟩
      · exact ⟨Or.inr hd1, Or.inr hd2⟩
    · rintro ⟨h1d, h2d⟩
      rcases h1d with rfl | hd1
      · exact Or.inl rfl
      · rcases h2d with h2d | hd2
        · exfalso
          have hgt := List.rel_of_sorted_cons h1 _ hd1
          omega
        · exact Or.inr ⟨hd1, hd2⟩
  | case2 posting1 rest1 posting2 rest2 hne hlt ih =>
    intro h1 h2 d
    rw [docIds_cons] at h1
    have ih' := ih h1.of_cons h2 d
    rw [docIds_cons] at h2
    simp only [intersection, if_neg hne, if_pos hlt, ih', docIds_cons, List.mem_cons]
    constructor
    · rintro ⟨hd1, hd2⟩
      exact ⟨Or.inr hd1, hd2⟩
    · rintro ⟨h1d, h2d⟩
      rcases h1d with rfl | hd1
      · exfalso
        rcases h2d with heq2 | hd2
        · omega
        · have := List.rel_of_sorted_cons h2 _ hd2
          omega
      · exact ⟨hd1, h2d⟩
  | case3 posting1 rest1 posting2 rest2 hne hnlt ih =>
    intro h1 h2 d
    rw [docIds_cons] at h2
    have ih' := ih h1 h2.of_cons d
    rw [docIds_cons] at h1
    simp only [intersection, if_neg hne, if_neg hnlt, ih', docIds_cons, List.mem_cons]
    constructor
    · rintro ⟨hd1, hd2⟩
      exact ⟨hd1, Or.inr hd2⟩
    · rintro ⟨h1d, h2d⟩
      rcases h2d with rfl | hd2
      · exfalso
        rcases h1d with heq2 | hd1
        · omega
        · have := List.rel_of_sorted_cons h1 _ hd1
          omega
      · exact ⟨h1d, hd2⟩
  | case4 l1 l2 hno =>
    intro h1 h2 d
    match l1, l2 with
    | [], _ => simp [intersection, docIds_nil]
    | p :: r, [] => simp [intersection, docIds_nil]
    | p :: r, q :: s => exact (hno p r q s rfl rfl).elim

theorem sorted_docIds_intersection :
    ∀ l1 l2 : List Posting,
      List.Sorted (· < ·) (docIds l1) → List.Sorted (· < ·) (docIds l2) →
      List.Sorted (· < ·) (docIds (intersection l1 l2)) := by
  intro l1 l2
  induction l1, l2 using intersection.induct with
  | case1 posting1 rest1 posting2 rest2 heq ih =>
    intro h1 h2
    rw [docIds_cons] at h1 h2
    simp only [intersection, if_pos heq, docIds_cons, List.sorted_cons]
    refine ⟨?_, ih h1.of_cons h2.of_cons⟩
    intro b hb
    have hmem := (mem_docIds_intersection rest1 rest2 h1.of_cons h2.of_cons b).1 hb
    exact List.rel_of_sorted_cons h1 _ hmem.1
  | case2 posting1 rest1 posting2 rest2 hne hlt ih =>
    intro h1 h2
    rw [docIds_cons] at h1
    simp only [intersection, if_neg hne, if_pos hlt]
    exact ih h1.of_cons h2
  | case3 posting1 rest1 posting2 rest2 hne hnlt ih =>
    intro h1 h2
    rw [docIds_cons] at h2
    simp only [intersection, if_neg hne, if_neg hnlt]
    exact ih h1 h2.of_cons
  | case4 l1 l2 hno =>
    intro h1 h2
    match l1, l2 with
    | [], _ => simp [intersection, docIds_nil]
    | p :: r, [] => simp [intersection, docIds_nil]
    | p :: r, q :: s => exact (hno p r q s rfl rfl).elim

theorem mem_docIds_union :
    ∀ l1 l2 : List Posting, ∀ d,
      d ∈ docIds (union l1 l2) ↔ d ∈ docIds l1 ∨ d ∈ docIds l2 := by
  intro l1 l2
  induction l1, l2 using union.induct with
  | case1 posting1 rest1 posting2 rest2 heq ih =>
    intro d
    have ih' := ih d
    simp only [union, if_pos heq, docIds_cons, List.mem_cons, ih']
    constructor
    · rintro (rfl | hd1 | hd2)
      · exact Or.inl (Or.inl rfl)
      · exact Or.inl (Or.inr hd1)
      · exact Or.inr (Or.inr hd2)
    · rintro ((rfl | hd1) | (h2d | hd2))
      · exact Or.inl rfl
      · exact Or.inr (Or.inl hd1)
      · exact Or.inl (h2d.trans heq.symm)
      · exact Or.inr (Or.inr hd2)
  | case2 posting1 rest1 posting2 rest2 hne hlt ih =>
    intro d
    have ih' := ih d
    simp only [union, if_neg hne, if_pos hlt, docIds_cons, List.mem_cons, ih']
    tauto
  | case3 posting1 rest1 posting2 rest2 hne hnlt ih =>
    intro d
    have ih' := ih d
    simp only [union, if_neg hne, if_neg hnlt, docIds_cons, List.mem_cons, ih']
    tauto
  | case4 posting1 rest1 ih =>
    intro d
    have ih' := ih d
    simp only [union, docIds_cons, List.mem_cons, ih', docIds_nil, List.not_mem_nil,
      or_false] at *
  | case5 posting2 rest2 ih =>
    intro d
    have ih' := ih d
    simp only [union, docIds_cons, List.mem_cons, ih', docIds_nil, List.not_mem_nil,
      false_or] at *
  | case6 => simp [union, docIds_nil]

theorem sorted_docIds_union :
    ∀ l1 l2 : List Posting,
      List.Sorted (· < ·) (docIds l1) → List.Sorted (· < ·) (docIds l2) →
      List.Sorted (· < ·) (docIds (union l1 l2)) := by
  intro l1 l2
  induction l1, l2 using union.induct with
  | case1 posting1 rest1 posting2 rest2 heq ih =>
    intro h1 h2
    rw [docIds_cons] at h1 h2
    simp only [union, if_pos heq, docIds_cons, List.sorted_cons]
    refine ⟨?_, ih h1.of_cons h2.of_cons⟩
    intro b hb
    rcases (mem_docIds_union rest1 rest2 b).1 hb with hb1 | hb2
    · exact List.rel_of_sorted_cons h1 _ hb1
    · rw [heq]
      exact List.rel_of_sorted_cons h2 _ hb2
  | case2 posting1 rest1 posting2 rest2 hne hlt ih =>
    intro h1 h2
    rw [docIds_cons] at h1
    simp only [union, if_neg hne, if_pos hlt, docIds_cons, List.sorted_cons]
    refine ⟨?_, ih h1.of_cons h2⟩
    intro b hb
    rcases (mem_docIds_union rest1 (posting2 :: rest2) b).1 hb with hb1 | hb2
    · exact List.rel_of_sorted_cons h1 _ hb1
    · rw [docIds_cons] at h2 hb2
      rcases List.mem_cons.mp hb2 with rfl | hb2
      · exact hlt
      · have := List.rel_of_sorted_cons h2 _ hb2
        omega
  | case3 posting1 rest1 posting2 rest2 hne hnlt ih =>
    intro h1 h2
    rw [docIds_cons] at h2
    simp only [union, if_neg hne, if_neg hnlt, docIds_cons, List.sorted_cons]
    refine ⟨?_, ih h1 h2.of_cons⟩
    intro b hb
    rcases (mem_docIds_union (posting1 :: rest1) rest2 b).1 hb with hb1 | hb2
    · rw [docIds_cons] at h1 hb1
      rcases List.mem_cons.mp hb1 with rfl | hb1
      · omega
      · have := List.rel_of_sorted_cons h1 _ hb1
        omega
    · exact List.rel_of_sorted_cons h2 _ hb2
  | case4 posting1 rest1 ih =>
    intro h1 h2
    rw [docIds_cons] at h1
    simp only [union, docIds_cons, List.sorted_cons]
    refine ⟨?_, ih h1.of_cons h2⟩
    intro b hb
    rcases (mem_docIds_union rest1 [] b).1 hb with hb1 | hb2
    · exact List.rel_of_sorted_cons h1 _ hb1
    · simp [docIds_nil] at hb2
  | case5 posting2 rest2 ih =>
    intro h1 h2
    rw [docIds_cons] at h2
    simp only [union, docIds_cons, List.sorted_cons]
    refine ⟨?_, ih h1 h2.of_cons⟩
    intro b hb
    rcases (mem_docIds_union [] rest2 b).1 hb with hb1 | hb2
    · simp [docIds_nil] at hb1
    · exact List.rel_of_sorted_cons h2 _ hb2
  | case6 =>
    intro h1 h2
    simp [union, docIds_nil]

theorem intersection_self : ∀ l : List Posting, intersection l l = l := by
  intro l
  induction l with
  | nil => simp [intersection]
  | cons p r ih => simp [intersection, ih, Nat.min_self]

theorem union_self : ∀ l : List Posting, union l l = l := by
  intro l
  induction l with
  | nil => simp [union]
  | cons p r ih => simp [union, ih, Nat.max_self]

end PostingsMerger

/-- C1: for every pair of posting sequences strictly increasing by document
id, `intersection` yields exactly the document ids present in both,
`union` yields exactly the ids present in at least one, and both outputs
are strictly increasing by document id with no duplicate ids. -/
theorem C1_merger_correct (l1 l2 : List Posting)
    (h1 : List.Sorted (· < ·) (docIds l1)) (h2 : List.Sorted (· < ·) (docIds l2)) :
    (∀ d, d ∈ docIds (PostingsMerger.intersection l1 l2) ↔
      d ∈ docIds l1 ∧ d ∈ docIds l2) ∧
    (∀ d, d ∈ docIds (PostingsMerger.union l1 l2) ↔
      d ∈ docIds l1 ∨ d ∈ docIds l2) ∧
    List.Sorted (· < ·) (docIds (PostingsMerger.intersection l1 l2)) ∧
    List.Sorted (· < ·) (docIds (PostingsMerger.union l1 l2)) ∧
    (docIds (PostingsMerger.intersection l1 l2)).Nodup ∧
    (docIds (PostingsMerger.union l1 l2)).Nodup := by
  refine ⟨PostingsMerger.mem_docIds_intersection l1 l2 h1 h2,
    PostingsMerger.mem_docIds_union l1 l2,
    PostingsMerger.sorted_docIds_intersection l1 l2 h1 h2,
    PostingsMerger.sorted_docIds_union l1 l2 h1 h2, ?_, ?_⟩
  · exact (PostingsMerger.sorted_docIds_intersection l1 l2 h1 h2).nodup
  · exact (PostingsMerger.sorted_docIds_union l1 l2 h1 h2).nodup

/-- Witness for C1 at the concrete posting lists
`[(1,2),(3,1)]` and `[(2,5),(3,4)]`. -/
theorem C1_witness :
    (List.Sorted (· < ·) (docIds [⟨1, 2⟩, ⟨3, 1⟩]) ∧
      List.Sorted (· < ·) (docIds [⟨2, 5⟩, ⟨3, 4⟩])) ∧
    ((∀ d, d ∈ docIds (PostingsMerger.intersection [⟨1, 2⟩, ⟨3, 1⟩] [⟨2, 5⟩, ⟨3, 4⟩]) ↔
      d ∈ docIds [⟨1, 2⟩, ⟨3, 1⟩] ∧ d ∈ docIds [⟨2, 5⟩, ⟨3, 4⟩]) ∧
    (∀ d, d ∈ docIds (PostingsMerger.union [⟨1, 2⟩, ⟨3, 1⟩] [⟨2, 5⟩, ⟨3, 4⟩]) ↔
      d ∈ docIds [⟨1, 2⟩, ⟨3, 1⟩] ∨ d ∈ docIds [⟨2, 5⟩, ⟨3, 4⟩]) ∧
    List.Sorted (· < ·) (docIds (PostingsMerger.intersection [⟨1, 2⟩, ⟨3, 1⟩] [⟨2, 5⟩, ⟨3, 4⟩])) ∧
    List.Sorted (· < ·) (docIds (PostingsMerger.union [⟨1, 2⟩, ⟨3, 1⟩] [⟨2, 5⟩, ⟨3, 4⟩])) ∧
    (docIds (PostingsMerger.intersection [⟨1, 2⟩, ⟨3, 1⟩] [⟨2, 5⟩, ⟨3, 4⟩])).Nodup ∧
    (docIds (PostingsMerger.union [⟨1, 2⟩, ⟨3, 1⟩] [⟨2, 5⟩, ⟨3, 4⟩])).Nodup) :=
  ⟨⟨by decide, by decide⟩, C1_merger_correct _ _ (by decide) (by decide)⟩

/-- C9: merging a strictly increasing posting sequence with itself, by
intersection or by union, reproduces exactly its document ids in order. -/
theorem C9_self_merge (l : List Posting) (_h : List.Sorted (· < ·) (docIds l)) :
    docIds (PostingsMerger.intersection l l) = docIds l ∧
    docIds (PostingsMerger.union l l) = docIds l := by
  rw [PostingsMerger.intersection_self, PostingsMerger.union_self]
  exact ⟨rfl, rfl⟩

/-- Witness for C9 at the concrete posting list `[(0,1),(2,3),(5,1)]`. -/
theorem C9_witness :
    List.Sorted (· < ·) (docIds [⟨0, 1⟩, ⟨2, 3⟩, ⟨5, 1⟩]) ∧
    (docIds (PostingsMerger.intersection [⟨0, 1⟩, ⟨2, 3⟩, ⟨5, 1⟩] [⟨0, 1⟩, ⟨2, 3⟩, ⟨5, 1⟩]) =
      docIds [⟨0, 1⟩, ⟨2, 3⟩, ⟨5, 1⟩] ∧
    docIds (PostingsMerger.union [⟨0, 1⟩, ⟨2, 3⟩, ⟨5, 1⟩] [⟨0, 1⟩, ⟨2, 3⟩, ⟨5, 1⟩]) =
      docIds [⟨0, 1⟩, ⟨2, 3⟩, ⟨5, 1⟩]) :=
  ⟨by decide, C9_self_merge _ (by decide)⟩

/-! Claims C6 and C8: the concrete index example and out-of-vocabulary
terms. -/

/-- C6: over the corpus with document 0 `"this is a Test"` and document 1
`"test TEST prøve"`, indexing field `body` with case-folding
normalization gives `get_document_frequency("test") = 2` and the posting
list `[(0, 1), (1, 2)]` for `"test"`. -/
theorem C6_example :
    get_document_frequency (build_index docs06) (str "test") = 2 ∧
    get_postings_iterator (build_index docs06) (str "test") = [⟨0, 1⟩, ⟨1, 2⟩] := by
  decide

/-- For any index value, a term that is not in the vocabulary has no term
id. -/
theorem get_term_id_eq_none_of_not_mem (index : InMemoryInvertedIndex) (term : Str)
    (h : term ∉ vocabulary index) : get_term_id index term = none := by
  unfold get_term_id
  rw [Option.map_eq_none', List.find?_eq_none]
  intro x hx
  simp only [decide_eq_true_eq]
  intro hxt
  exact h (hxt ▸ List.mem_map_of_mem Prod.fst hx)

/-- C8: for every term not present in the built vocabulary, the postings
iterator is empty and the document frequency is 0; neither operation can
signal an error (both are total functions). -/
theorem C8_oov_terms (index : InMemoryInvertedIndex) (term : Str)
    (h : term ∉ vocabulary index) :
    get_postings_iterator index term = [] ∧ get_document_frequency index term = 0 := by
  have hid := get_term_id_eq_none_of_not_mem index term h
  constructor
  · unfold get_postings_iterator
    rw [hid]
  · unfold get_document_frequency
    rw [hid]

/-- Witness for C8: the term `"zzz"` is out of vocabulary in the example
index. -/
theorem C8_witness :
    str "zzz" ∉ vocabulary (build_index docs06) ∧
    (get_postings_iterator (build_index docs06) (str "zzz") = [] ∧
      get_document_frequency (build_index docs06) (str "zzz") = 0) :=
  ⟨by decide, C8_oov_terms _ _ (by decide)⟩

/-! Claim C2: the posting-list monotonicity invariant of the built index.
The build sorts the token sequence by term only (the sort is stable) and
`Counter` preserves first-encounter order, so the invariant holds when the
corpus is iterated in increasing document-id order; it fails for an
out-of-order corpus, so the claim's "regardless of corpus iteration order"
part is refuted below. -/

/-- Stability of the embedded sort: filtering one term's occurrences out
of the sorted token sequence gives exactly the occurrences of that term in
the original order. -/
theorem filter_sortedTokenSequence (docs : List (Nat × List Str)) (t : Str) :
    (sortedTokenSequence docs).filter (fun p => p.1 = t) =
      (buildTokenSequence docs).filter (fun p => p.1 = t) := by
  set le : (Str × Nat) → (Str × Nat) → Prop := fun a b => a.1 ≤ b.1 with hle
  set p : (Str × Nat) → Bool := fun q => decide (q.1 = t) with hp
  set c := (buildTokenSequence docs).filter p with hc
  have hkey : ∀ x ∈ c, x.1 = t := by
    intro x hx
    have := List.of_mem_filter hx
    simpa [hp] using this
  have hcp : c.Pairwise le := by
    refine List.pairwise_of_forall_mem_list ?_
    intro a ha b hb
    rw [hle]
    simp only
    rw [hkey a ha, hkey b hb]
  have hsub : c.Sublist (List.insertionSort le (buildTokenSequence docs)) :=
    List.sublist_insertionSort hcp (List.filter_sublist _)
  have hcc : c.filter p = c := by
    rw [List.filter_eq_self]
    intro a ha
    simp [hp, hkey a ha]
  have hsub2 : c.Sublist ((List.insertionSort le (buildTokenSequence docs)).filter p) := by
    rw [← hcc]
    exact List.Sublist.filter p hsub
  have hperm : ((List.insertionSort le (buildTokenSequence docs)).filter p).Perm c :=
    (List.perm_insertionSort le (buildTokenSequence docs)).filter p
  have hlen : c.length = ((List.insertionSort le (buildTokenSequence docs)).filter p).length :=
    (hperm.length_eq).symm
  have := List.Sublist.eq_of_length hsub2 hlen
  rw [sortedTokenSequence]
  exact this.symm

/-- Every document id occurring in the token sequence is a document id of
the corpus. -/
theorem mem_seconds_buildTokenSequence (docs : List (Nat × List Str)) (x : Nat)
    (hx : x ∈ (buildTokenSequence docs).map Prod.snd) : x ∈ docs.map Prod.fst := by
  simp only [buildTokenSequence, List.map_flatMap, List.mem_flatMap, List.map_map,
    List.mem_map, Function.comp_apply] at hx
  obtain ⟨doc, hdoc, ft, -, a, -, heq⟩ := hx
  rw [← heq]
  exact List.mem_map_of_mem Prod.fst hdoc

/-- When the corpus is iterated in increasing document-id order, the
document ids of the token sequence are nondecreasing. -/
theorem sorted_seconds_buildTokenSequence (docs : List (Nat × List Str))
    (hdocs : List.Sorted (· < ·) (docs.map Prod.fst)) :
    List.Sorted (· ≤ ·) ((buildTokenSequence docs).map Prod.snd) := by
  induction docs with
  | nil => simp [buildTokenSequence]
  | cons doc rest ih =>
    rw [List.map_cons] at hdocs
    have hblock : buildTokenSequence (doc :: rest) =
        ((doc.2.flatMap fun fieldText => get_terms fieldText).map fun term => (term, doc.1)) ++
          buildTokenSequence rest := by
      simp [buildTokenSequence]
    rw [hblock, List.map_append]
    show List.Pairwise _ _
    rw [List.pairwise_append]
    refine ⟨?_, ih hdocs.of_cons, ?_⟩
    · refine List.pairwise_of_forall_mem_list ?_
      intro a ha b hb
      simp only [List.map_map, List.mem_map, Function.comp_apply] at ha hb
      obtain ⟨u, -, rfl⟩ := ha
      obtain ⟨v, -, rfl⟩ := hb
      exact le_refl _
    · intro a ha b hb
      simp only [List.map_map, List.mem_map, Function.comp_apply] at ha
      obtain ⟨u, -, rfl⟩ := ha
      have hbmem := mem_seconds_buildTokenSequence rest b hb
      exact le_of_lt (List.rel_of_sorted_cons hdocs _ hbmem)

/-- The document-id groups accumulated by the grouping fold are
nondecreasing, provided each term's occurrences arrive with nondecreasing
document ids. -/
theorem foldl_addOccurrence_sorted :
    ∀ (l : List (Str × Nat)) (acc : List (Str × List Nat)),
      (∀ tv ∈ acc, List.Sorted (· ≤ ·) tv.2 ∧
        ∀ d ∈ (l.filter (fun p => p.1 = tv.1)).map Prod.snd, ∀ a ∈ tv.2, a ≤ d) →
      (∀ t, List.Sorted (· ≤ ·) ((l.filter (fun p => p.1 = t)).map Prod.snd)) →
      ∀ tv ∈ l.foldl (fun acc td => addOccurrence acc td.1 td.2) acc,
        List.Sorted (· ≤ ·) tv.2 := by
  intro l
  induction l with
  | nil =>
    intro acc hacc _ tv htv
    exact (hacc tv htv).1
  | cons td rest ih =>
    intro acc hacc hkeys tv htv
    rw [List.foldl_cons] at htv
    refine ih (addOccurrence acc td.1 td.2) ?_ ?_ tv htv
    · intro uv huv
      by_cases hmem : acc.any fun p => p.1 = td.1
      · rw [addOccurrence, if_pos hmem] at huv
        rw [List.mem_map] at huv
        obtain ⟨u, hu, rfl⟩ := huv
        have hold := hacc u hu
        by_cases hut : u.1 = td.1
        · rw [if_pos hut]
          have hfilter1 : (td :: rest).filter (fun p => p.1 = u.1) =
              td :: rest.filter (fun p => p.1 = u.1) := by
            rw [List.filter_cons, if_pos (by simp [hut])]
          constructor
          · show List.Pairwise _ (u.2 ++ [td.2])
            rw [List.pairwise_append]
            refine ⟨hold.1, List.pairwise_singleton _ _, ?_⟩
            intro a ha b hb
            rw [List.mem_singleton] at hb
            subst hb
            refine hold.2 td.2 ?_ a ha
            rw [hfilter1, List.map_cons]
            exact List.mem_cons_self _ _
          · intro d hd a ha
            simp only at hd ha ⊢
            have hd' : d ∈ ((td :: rest).filter (fun p => p.1 = u.1)).map Prod.snd := by
              rw [hfilter1, List.map_cons]
              exact List.mem_cons_of_mem _ hd
            rw [List.mem_append, List.mem_singleton] at ha
            rcases ha with ha | rfl
            · exact hold.2 d hd' a ha
            · have hsorted := hkeys u.1
              rw [hfilter1, List.map_cons] at hsorted
              exact List.rel_of_sorted_cons hsorted d hd
        · rw [if_neg hut]
          have hfilter2 : (td :: rest).filter (fun p => p.1 = u.1) =
              rest.filter (fun p => p.1 = u.1) := by
            have hne : ¬ td.1 = u.1 := fun h => hut h.symm
            rw [List.filter_cons, if_neg (by simpa using hne)]
          refine ⟨hold.1, ?_⟩
          intro d hd a ha
          refine hold.2 d ?_ a ha
          rw [hfilter2]
          exact hd
      · rw [addOccurrence, if_neg hmem] at huv
        rw [List.mem_append, List.mem_singleton] at huv
        rcases huv with hu | rfl
        · have hold := hacc uv hu
          have hut : uv.1 ≠ td.1 := by
            intro hcontra
            rw [List.any_eq_true] at hmem
            exact hmem ⟨uv, hu, by simp [hcontra]⟩
          have hfilter2 : (td :: rest).filter (fun p => p.1 = uv.1) =
              rest.filter (fun p => p.1 = uv.1) := by
            have hne : ¬ td.1 = uv.1 := fun h => hut h.symm
            rw [List.filter_cons, if_neg (by simpa using hne)]
          refine ⟨hold.1, ?_⟩
          intro d hd a ha
          refine hold.2 d ?_ a ha
          rw [hfilter2]
          exact hd
        · have hfilter1 : (td :: rest).filter (fun p => p.1 = td.1) =
              td :: rest.filter (fun p => p.1 = td.1) := by
            rw [List.filter_cons, if_pos (by simp)]
          refine ⟨List.sorted_singleton _, ?_⟩
          intro d hd a ha
          rw [List.mem_singleton] at ha
          subst ha
          have hsorted := hkeys td.1
          rw [hfilter1, List.map_cons] at hsorted
          exact List.rel_of_sorted_cons hsorted d hd
    · intro t
      have hsorted := hkeys t
      have hsub : (rest.filter (fun p => p.1 = t)).map Prod.snd |>.Sublist
          (((td :: rest).filter (fun p => p.1 = t)).map Prod.snd) := by
        refine List.Sublist.map Prod.snd ?_
        rw [List.filter_cons]
        by_cases h : td.1 = t
        · rw [if_pos (by simp [h])]
          exact List.sublist_cons_self _ _
        · rw [if_neg (by simp [h])]
      exact List.Pairwise.sublist hsub hsorted

/-- The keys of the occurrence counter are strictly increasing when the
counted list is nondecreasing. -/
theorem foldl_bump_sorted :
    ∀ (v : List Nat) (acc : List (Nat × Nat)),
      List.Sorted (· < ·) (acc.map Prod.fst) →
      (∀ d ∈ v, ∀ f ∈ acc.map Prod.fst, f ≤ d) →
      List.Sorted (· ≤ ·) v →
      List.Sorted (· < ·) ((v.foldl bump acc).map Prod.fst) := by
  intro v
  induction v with
  | nil =>
    intro acc hacc _ _
    exact hacc
  | cons d rest ih =>
    intro acc hacc hbound hv
    rw [List.foldl_cons]
    refine ih (bump acc d) ?_ ?_ hv.of_cons
    · by_cases hmem : acc.any fun p => p.1 = d
      · rw [bump, if_pos hmem]
        have hkeys : ((acc.map fun p => if p.1 = d then (p.1, p.2 + 1) else p).map Prod.fst) =
            acc.map Prod.fst := by
          rw [List.map_map]
          refine List.map_congr_left ?_
          intro p _
          by_cases h : p.1 = d <;> simp [h]
        rw [hkeys]
        exact hacc
      · rw [bump, if_neg hmem, List.map_append]
        show List.Pairwise _ _
        rw [List.pairwise_append]
        refine ⟨hacc, List.pairwise_singleton _ _, ?_⟩
        intro a ha b hb
        rw [List.map_singleton, List.mem_singleton] at hb
        subst hb
        have hle := hbound b (List.mem_cons_self _ _) a ha
        have hne : a ≠ b := by
          intro hcontra
          rw [List.any_eq_true] at hmem
          rw [List.mem_map] at ha
          obtain ⟨p, hp, rfl⟩ := ha
          exact hmem ⟨p, hp, by simp [hcontra]⟩
        omega
    · intro d' hd' f hf
      by_cases hmem : acc.any fun p => p.1 = d
      · rw [bump, if_pos hmem] at hf
        have hkeys : ((acc.map fun p => if p.1 = d then (p.1, p.2 + 1) else p).map Prod.fst) =
            acc.map Prod.fst := by
          rw [List.map_map]
          refine List.map_congr_left ?_
          intro p _
          by_cases h : p.1 = d <;> simp [h]
        rw [hkeys] at hf
        exact hbound d' (List.mem_cons_of_mem _ hd') f hf
      · rw [bump, if_neg hmem, List.map_append, List.mem_append] at hf
        rcases hf with hf | hf
        · exact hbound d' (List.mem_cons_of_mem _ hd') f hf
        · rw [List.map_singleton, List.mem_singleton] at hf
          subst hf
          exact List.rel_of_sorted_cons hv d' hd'

/-- The first components of the occurrence counter of a nondecreasing list
are strictly increasing. -/
theorem countsInOrder_sorted (v : List Nat) (hv : List.Sorted (· ≤ ·) v) :
    List.Sorted (· < ·) ((countsInOrder v).map Prod.fst) := by
  refine foldl_bump_sorted v [] ?_ ?_ hv
  · simp
  · simp

/-- C2 (amended): when the corpus iterates documents in increasing
document-id order, every posting list materialized by the index build is
strictly increasing by document id with no duplicates.  (The build does not
sort postings by document id, so the invariant is not guaranteed for other
iteration orders; see the counterexample.) -/
theorem C2_amended_sorted_postings (docs : List (Nat × List Str))
    (hdocs : List.Sorted (· < ·) (docs.map Prod.fst)) :
    ∀ pl ∈ (build_index docs).posting_lists,
      List.Sorted (· < ·) (docIds pl) ∧ (docIds pl).Nodup := by
  intro pl hpl
  simp only [build_index, List.mem_map] at hpl
  obtain ⟨tv, htv, rfl⟩ := hpl
  have hgroup : List.Sorted (· ≤ ·) tv.2 := by
    refine foldl_addOccurrence_sorted (sortedTokenSequence docs) [] ?_ ?_ tv htv
    · simp
    · intro t
      rw [filter_sortedTokenSequence]
      refine List.Pairwise.sublist ?_ (sorted_seconds_buildTokenSequence docs hdocs)
      exact List.Sublist.map Prod.snd (List.filter_sublist _)
  have hcounts := countsInOrder_sorted tv.2 hgroup
  have hids : docIds ((countsInOrder tv.2).map fun dc => (⟨dc.1, dc.2⟩ : Posting)) =
      (countsInOrder tv.2).map Prod.fst := by
    rw [docIds, List.map_map]
    rfl
  rw [hids]
  exact ⟨hcounts, hcounts.nodup⟩

/-- Witness for the amended C2 at the in-order two-document corpus. -/
theorem C2_witness :
    List.Sorted (· < ·) (docs06.map Prod.fst) ∧
    (∀ pl ∈ (build_index docs06).posting_lists,
      List.Sorted (· < ·) (docIds pl) ∧ (docIds pl).Nodup) :=
  ⟨by decide, C2_amended_sorted_postings docs06 (by decide)⟩

/-- C2 counterexample: over the corpus `docsC2`, which iterates document 1
before document 0, the build materializes the posting list
`[(1, 1), (0, 1)]`, which is not strictly increasing by document id — the
build does not sort defensively. -/
theorem C2_counterexample :
    ∃ pl ∈ (build_index docsC2).posting_lists, ¬ List.Sorted (· < ·) (docIds pl) := by
  refine ⟨[⟨1, 1⟩, ⟨0, 1⟩], by decide, by decide⟩

/-! Claims C5 and C7: the StringFinder reports matches on token boundaries
only, and the two-entry dictionary example. -/

/-- Every yield of the active-state pass has the range
`(state start, token end)` for some state of the pass, and every state
after the pass is an untouched state of the visited prefix or carries the
start offset of one of the pass's states. -/
theorem innerLoop_spec (buffer tok : Str) (rngEnd : Nat) :
    ∀ acc todo : List ScanState,
      (∀ y ∈ (innerLoop buffer tok rngEnd acc todo).1, ∃ s ∈ todo, y.2 = (s.2, rngEnd)) ∧
      (∀ s' ∈ (innerLoop buffer tok rngEnd acc todo).2,
        s' ∈ acc ∨ ∃ s ∈ todo, s'.2 = s.2) := by
  intro acc todo
  induction acc, todo using innerLoop.induct buffer tok rngEnd with
  | case1 acc =>
    constructor
    · intro y hy
      simp only [innerLoop] at hy
      exact absurd hy (List.not_mem_nil y)
    · intro s' hs'
      simp only [innerLoop] at hs'
      exact Or.inl hs'
  | case2 acc s rest hits app hpos ih =>
    constructor
    · intro y hy
      rw [innerLoop.eq_def] at hy
      simp only [if_pos hpos, List.mem_append] at hy
      rcases hy with hy | hy
      · have := List.eq_of_mem_replicate hy
        subst this
        exact ⟨s, List.mem_cons_self _ _, rfl⟩
      · obtain ⟨u, hu, heq⟩ := ih.1 y hy
        rw [List.mem_append] at hu
        rcases hu with hu | hu
        · exact ⟨u, List.mem_cons_of_mem _ hu, heq⟩
        · rw [List.mem_map] at hu
          obtain ⟨t2, -, rfl⟩ := hu
          exact ⟨s, List.mem_cons_self _ _, heq⟩
    · intro s' hs'
      rw [innerLoop.eq_def] at hs'
      simp only [if_pos hpos] at hs'
      rcases ih.2 s' hs' with hs' | ⟨u, hu, heq⟩
      · rw [List.mem_append, List.mem_singleton] at hs'
        rcases hs' with hs' | rfl
        · exact Or.inl hs'
        · exact Or.inr ⟨s', List.mem_cons_self _ _, rfl⟩
      · rw [List.mem_append] at hu
        rcases hu with hu | hu
        · exact Or.inr ⟨u, List.mem_cons_of_mem _ hu, heq⟩
        · rw [List.mem_map] at hu
          obtain ⟨t2, -, rfl⟩ := hu
          exact Or.inr ⟨s, List.mem_cons_self _ _, heq⟩
  | case3 acc s hits hneg =>
    constructor
    · intro y hy
      rw [innerLoop.eq_def] at hy
      simp only [if_neg hneg] at hy
      have := List.eq_of_mem_replicate hy
      subst this
      exact ⟨s, List.mem_cons_self _ _, rfl⟩
    · intro s' hs'
      rw [innerLoop.eq_def] at hs'
      simp only [if_neg hneg, List.mem_append] at hs'
      rcases hs' with hs' | hs'
      · exact Or.inl hs'
      · rw [List.mem_map] at hs'
        obtain ⟨t2, -, rfl⟩ := hs'
        exact Or.inr ⟨s, List.mem_cons_self _ _, rfl⟩
  | case4 acc s hits app hneg b rest2 ih =>
    constructor
    · intro y hy
      rw [innerLoop.eq_def] at hy
      simp only [if_neg hneg, List.mem_append] at hy
      rcases hy with hy | hy
      · have := List.eq_of_mem_replicate hy
        subst this
        exact ⟨s, List.mem_cons_self _ _, rfl⟩
      · obtain ⟨u, hu, heq⟩ := ih.1 y hy
        rw [List.mem_append] at hu
        rcases hu with hu | hu
        · exact ⟨u, List.mem_cons_of_mem _ (List.mem_cons_of_mem _ hu), heq⟩
        · rw [List.mem_map] at hu
          obtain ⟨t2, -, rfl⟩ := hu
          exact ⟨s, List.mem_cons_self _ _, heq⟩
    · intro s' hs'
      rw [innerLoop.eq_def] at hs'
      simp only [if_neg hneg] at hs'
      rcases ih.2 s' hs' with hs' | ⟨u, hu, heq⟩
      · rw [List.mem_append, List.mem_singleton] at hs'
        rcases hs' with hs' | rfl
        · exact Or.inl hs'
        · exact Or.inr ⟨s', List.mem_cons_of_mem _ (List.mem_cons_self _ _), rfl⟩
      · rw [List.mem_append] at hu
        rcases hu with hu | hu
        · exact Or.inr ⟨u, List.mem_cons_of_mem _ (List.mem_cons_of_mem _ hu), heq⟩
        · rw [List.mem_map] at hu
          obtain ⟨t2, -, rfl⟩ := hu
          exact Or.inr ⟨s, List.mem_cons_self _ _, heq⟩

/-- Every match reported by the token loop starts at the start offset of
some buffer token and ends at the end offset of some buffer token, given
that all processed tokens are buffer tokens and all incoming states start
on token starts. -/
theorem scanTokens_spec (tr : Trie) (buffer : Str) :
    ∀ (tl : List (Str × (Nat × Nat))) (states : List ScanState),
      (∀ tk ∈ tl, tk ∈ tokens buffer) →
      (∀ s ∈ states, ∃ tk ∈ tokens buffer, s.2 = tk.2.1) →
      ∀ m ∈ scanTokens tr buffer tl states,
        (∃ tk ∈ tokens buffer, m.2.1 = tk.2.1) ∧ (∃ tk ∈ tokens buffer, m.2.2 = tk.2.2) := by
  intro tl
  induction tl with
  | nil =>
    intro states _ _ m hm
    simp only [scanTokens] at hm
    exact absurd hm (List.not_mem_nil m)
  | cons tkr moreTokens ih =>
    intro states htl hstates m hm
    obtain ⟨tok, rng⟩ := tkr
    have htok : (tok, rng) ∈ tokens buffer := htl _ (List.mem_cons_self _ _)
    have hyield : ∀ y ∈ (innerLoop buffer tok rng.2 [] states).1,
        (∃ tk ∈ tokens buffer, y.2.1 = tk.2.1) ∧ (∃ tk ∈ tokens buffer, y.2.2 = tk.2.2) := by
      intro y hy
      obtain ⟨s, hs, heq⟩ := (innerLoop_spec buffer tok rng.2 [] states).1 y hy
      obtain ⟨tk, htk, hstart⟩ := hstates s hs
      rw [heq]
      exact ⟨⟨tk, htk, hstart⟩, ⟨(tok, rng), htok, rfl⟩⟩
    have hout : ∀ s' ∈ (innerLoop buffer tok rng.2 [] states).2,
        ∃ tk ∈ tokens buffer, s'.2 = tk.2.1 := by
      intro s' hs'
      rcases (innerLoop_spec buffer tok rng.2 [] states).2 s' hs' with habs | ⟨u, hu, heq⟩
      · exact absurd habs (List.not_mem_nil s')
      · obtain ⟨tk, htk, hstart⟩ := hstates u hu
        exact ⟨tk, htk, heq.trans hstart⟩
    have htl' : ∀ tk ∈ moreTokens, tk ∈ tokens buffer :=
      fun tk htk => htl tk (List.mem_cons_of_mem _ htk)
    cases hcons : tr.consume tok with
    | none =>
      simp only [scanTokens, hcons, List.mem_append] at hm
      rcases hm with hm | hm
      · exact hyield m hm
      · exact ih _ htl' hout m hm
    | some t =>
      cases hsep : t.consume [' '] with
      | none =>
        simp only [scanTokens, hcons, hsep, List.mem_append] at hm
        rcases hm with (hm | hm) | hm
        · exact hyield m hm
        · by_cases hf : t.isFinal
          · rw [if_pos hf, List.mem_singleton] at hm
            subst hm
            exact ⟨⟨(tok, rng), htok, rfl⟩, ⟨(tok, rng), htok, rfl⟩⟩
          · rw [if_neg hf] at hm
            exact absurd hm (List.not_mem_nil m)
        · exact ih _ htl' hout m hm
      | some t1 =>
        simp only [scanTokens, hcons, hsep, List.mem_append] at hm
        rcases hm with (hm | hm) | hm
        · exact hyield m hm
        · by_cases hf : t.isFinal
          · rw [if_pos hf, List.mem_singleton] at hm
            subst hm
            exact ⟨⟨(tok, rng), htok, rfl⟩, ⟨(tok, rng), htok, rfl⟩⟩
          · rw [if_neg hf] at hm
            exact absurd hm (List.not_mem_nil m)
        · refine ih _ htl' ?_ m hm
          intro s' hs'
          rw [List.mem_append, List.mem_singleton] at hs'
          rcases hs' with hs' | rfl
          · exact hout s' hs'
          · exact ⟨(tok, rng), htok, rfl⟩

/-- C5: every match yielded by `scan` has a range whose start offset is the
start of some token of the tokenized buffer and whose end offset is the end
of some token; no match starts or ends strictly inside a token. -/
theorem C5_matches_on_token_boundaries (tr : Trie) (buffer : Str) (m : ScanMatch)
    (hm : m ∈ scan tr buffer) :
    (∃ tk ∈ tokens buffer, m.2.1 = tk.2.1) ∧ (∃ tk ∈ tokens buffer, m.2.2 = tk.2.2) := by
  refine scanTokens_spec tr buffer (tokens buffer) [] (fun _ h => h) ?_ m hm
  intro s hs
  exact absurd hs (List.not_mem_nil s)

/-- Concrete evaluation of the StringFinder example: scanning
`"en norsk ørret fra romerike"` against the dictionary
`{"norsk", "norsk ørret"}` yields exactly the two expected matches. -/
theorem scan_trie7_eq : scan trie7 buf7 =
    [(str "norsk", (3, 8)), (str "norsk ørret", (3, 14))] := by
  simp [scan, scanTokens, innerLoop.eq_def, stateStep, walkChars, sepContinue, trie7, buf7,
    str, tokens, tokenizeGo, Trie.insert, Trie.empty, Trie.consume, Trie.consume1,
    Trie.childList, Trie.isFinal, matchText, strings, joinSpace]
  decide

/-- C7: with trie entries `"norsk"` and `"norsk ørret"`, scanning
`"en norsk ørret fra romerike"` yields exactly the match `"norsk"` with
range `(3, 8)` and the match `"norsk ørret"` with range `(3, 14)`, the
latter spanning from the start of the `norsk` token to the end of the
`ørret` token. -/
theorem C7_example_scan : scan trie7 buf7 =
    [(str "norsk", (3, 8)), (str "norsk ørret", (3, 14))] :=
  scan_trie7_eq

/-- Witness for C5 at the match `("norsk", (3, 8))` of the concrete
example. -/
theorem C5_witness :
    ((str "norsk", ((3 : Nat), (8 : Nat))) : ScanMatch) ∈ scan trie7 buf7 ∧
    ((∃ tk ∈ tokens buf7,
        ((str "norsk", ((3 : Nat), (8 : Nat))) : ScanMatch).2.1 = tk.2.1) ∧
      (∃ tk ∈ tokens buf7,
        ((str "norsk", ((3 : Nat), (8 : Nat))) : ScanMatch).2.2 = tk.2.2)) := by
  have hmem : ((str "norsk", ((3 : Nat), (8 : Nat))) : ScanMatch) ∈ scan trie7 buf7 := by
    rw [scan_trie7_eq]
    exact List.mem_cons_self _ _
  exact ⟨hmem, C5_matches_on_token_boundaries trie7 buf7 _ hmem⟩

/-! Claim C4: the suffix-array binary search.  Order facts about the
lexicographic order on `Str` first. -/

/-- Appending a nonempty tail makes a string lexicographically larger. -/
theorem str_lt_append (l : Str) : ∀ r : Str, r ≠ [] → l < l ++ r := by
  induction l with
  | nil =>
    intro r hr
    match r with
    | [] => exact absurd rfl hr
    | c :: rest => exact List.nil_lt_cons c rest
  | cons a l ih =>
    intro r hr
    show List.Lex _ _ _
    exact List.Lex.cons (ih r hr)

/-- A true-prefix extension is lexicographically at least the needle. -/
theorem str_le_of_append (l r : Str) : l ≤ l ++ r := by
  match r with
  | [] => simp
  | c :: rest => exact le_of_lt (str_lt_append l (c :: rest) (by simp))

/-- Lexicographic comparison of cons cells, spelled out. -/
theorem str_cons_le_cons_iff (a b : Char) (l m : Str) :
    a :: l ≤ b :: m ↔ a < b ∨ (a = b ∧ l ≤ m) := by
  constructor
  · intro h
    by_cases hab : a = b
    · subst hab
      right
      refine ⟨rfl, ?_⟩
      by_contra hml
      rw [not_le] at hml
      exact absurd h (not_le.mpr (List.Lex.cons hml))
    · left
      rcases lt_trichotomy a b with h1 | h1 | h1
      · exact h1
      · exact absurd h1 hab
      · exact absurd h (not_le.mpr (List.Lex.rel h1))
  · rintro (hab | ⟨rfl, hlm⟩)
    · exact le_of_lt (List.Lex.rel hab)
    · exact List.cons_le_cons a hlm

/-- A string that is at least the needle but does not start with it is
strictly above every string that does start with it. -/
theorem str_gt_extensions (needle : Str) :
    ∀ x : Str, needle ≤ x → (¬ ∃ r, x = needle ++ r) →
      ∀ r : Str, needle ++ r < x := by
  induction needle with
  | nil =>
    intro x _ hnp
    exact absurd ⟨x, rfl⟩ hnp
  | cons c nrest ih =>
    intro x hle hnp r
    match x with
    | [] =>
      exfalso
      have : ¬ (c :: nrest ≤ []) := by
        rw [not_le]
        exact List.nil_lt_cons c nrest
      exact this hle
    | a :: xrest =>
      rcases (str_cons_le_cons_iff c a nrest xrest).1 hle with hca | ⟨rfl, hrest⟩
      · exact List.Lex.rel hca
      · have hnp' : ¬ ∃ r', xrest = nrest ++ r' := by
          rintro ⟨r', rfl⟩
          exact hnp ⟨r', rfl⟩
        exact List.Lex.cons (ih xrest hrest hnp' r)

/-- Access into a nondecreasing string list is monotone. -/
theorem sorted_getD_le (arr : List Str) (hs : List.Sorted (· ≤ ·) arr)
    (i j : Nat) (hij : i ≤ j) (hj : j < arr.length) :
    arr.getD i [] ≤ arr.getD j [] := by
  have hi : i < arr.length := Nat.lt_of_le_of_lt hij hj
  rw [List.getD_eq_getElem arr [] hi, List.getD_eq_getElem arr [] hj]
  rcases Nat.eq_or_lt_of_le hij with rfl | hlt
  · exact le_refl _
  · exact List.pairwise_iff_getElem.mp hs i j hi hj hlt

/-- The loop invariant of the embedded binary search: starting from a
window `[left, right]` outside of which the answer is already bracketed,
the loop returns a boundary position `i` with every suffix strictly below
`i` at most the needle and every suffix at or above `i` at least the
needle. -/
theorem bsearchGo_spec (arr : List Str) (needle : Str)
    (hs : List.Sorted (· ≤ ·) arr) :
    ∀ left right : Int,
      0 ≤ left → left ≤ right + 1 → right < (arr.length : Int) →
      (∀ j : Nat, (j : Int) < left → j < arr.length → arr.getD j [] ≤ needle) →
      (∀ j : Nat, right < (j : Int) → j < arr.length → needle ≤ arr.getD j []) →
      0 ≤ bsearchGo arr needle left right ∧
      bsearchGo arr needle left right ≤ (arr.length : Int) ∧
      (∀ j : Nat, (j : Int) < bsearchGo arr needle left right → j < arr.length →
        arr.getD j [] ≤ needle) ∧
      (∀ j : Nat, bsearchGo arr needle left right ≤ (j : Int) → j < arr.length →
        needle ≤ arr.getD j []) := by
  intro left right
  induction left, right using bsearchGo.induct arr needle with
  | case1 left right hlr middle suffix hlt ih =>
    intro h0 hlr1 hrlen hlow hhigh
    have hmid : left ≤ middle ∧ middle ≤ right := by constructor <;> omega
    have heq : bsearchGo arr needle left right = bsearchGo arr needle (middle + 1) right := by
      rw [bsearchGo.eq_def]
      rw [if_pos hlr, if_pos hlt]
    rw [heq]
    refine ih (by omega) (by omega) hrlen ?_ hhigh
    intro j hj hjlen
    have hjmid : j ≤ middle.toNat := by omega
    have hmidlen : middle.toNat < arr.length := by omega
    calc arr.getD j [] ≤ arr.getD middle.toNat [] :=
          sorted_getD_le arr hs j middle.toNat hjmid hmidlen
      _ ≤ needle := le_of_lt hlt
  | case2 left right hlr middle suffix hnlt hgt ih =>
    intro h0 hlr1 hrlen hlow hhigh
    have hmid : left ≤ middle ∧ middle ≤ right := by constructor <;> omega
    have heq : bsearchGo arr needle left right = bsearchGo arr needle left (middle - 1) := by
      rw [bsearchGo.eq_def]
      rw [if_pos hlr, if_neg hnlt, if_pos hgt]
    rw [heq]
    refine ih h0 (by omega) (by omega) hlow ?_
    intro j hj hjlen
    have hjmid : middle.toNat ≤ j := by omega
    have hmidlen : middle.toNat < arr.length := by omega
    calc needle ≤ arr.getD middle.toNat [] := le_of_lt hgt
      _ ≤ arr.getD j [] := sorted_getD_le arr hs middle.toNat j hjmid hjlen
  | case3 left right hlr middle suffix hnlt hngt =>
    intro h0 hlr1 hrlen hlow hhigh
    have hmid : left ≤ middle ∧ middle ≤ right := by constructor <;> omega
    have hmidlen : middle.toNat < arr.length := by omega
    have heqn : arr.getD middle.toNat [] = needle :=
      le_antisymm (not_lt.mp hngt) (not_lt.mp hnlt)
    have heq : bsearchGo arr needle left right = middle := by
      rw [bsearchGo.eq_def]
      rw [if_pos hlr, if_neg hnlt, if_neg hngt]
    rw [heq]
    refine ⟨by omega, by omega, ?_, ?_⟩
    · intro j hj hjlen
      calc arr.getD j [] ≤ arr.getD middle.toNat [] :=
            sorted_getD_le arr hs j middle.toNat (by omega) hmidlen
        _ = needle := heqn
    · intro j hj hjlen
      calc needle = arr.getD middle.toNat [] := heqn.symm
        _ ≤ arr.getD j [] := sorted_getD_le arr hs middle.toNat j (by omega) hjlen
  | case4 left right hnlr =>
    intro h0 hlr1 hrlen hlow hhigh
    have heq : bsearchGo arr needle left right = left := by
      rw [bsearchGo.eq_def]
      rw [if_neg hnlr]
    rw [heq]
    refine ⟨h0, by omega, hlow, ?_⟩
    intro j hj hjlen
    exact hhigh j (by omega) hjlen

/-- The suffix strings of a built suffix array are nondecreasing: the
build sorts the pointers by their pointed-to strings. -/
theorem sorted_suffixStrings (docs : List (Nat × List Str)) :
    List.Sorted (· ≤ ·) (suffixStrings (suffixArrayFromDocs docs)) := by
  haveI h1 : IsTotal (Nat × Nat) (fun a b =>
      suffix_of_doc (buildHaystack docs) a ≤ suffix_of_doc (buildHaystack docs) b) :=
    ⟨fun a b => le_total _ _⟩
  haveI h2 : IsTrans (Nat × Nat) (fun a b =>
      suffix_of_doc (buildHaystack docs) a ≤ suffix_of_doc (buildHaystack docs) b) :=
    ⟨fun a b c hab hbc => le_trans hab hbc⟩
  have hsorted := List.sorted_insertionSort (fun a b =>
      suffix_of_doc (buildHaystack docs) a ≤ suffix_of_doc (buildHaystack docs) b)
    (buildSuffixesUnsorted (buildHaystack docs))
  show List.Pairwise _ _
  rw [suffixStrings, List.pairwise_map]
  exact hsorted

/-- C4 (amended): for every corpus and normalized needle, when no stored
suffix string equals the needle and the needle occurs as a true prefix of
at least one stored suffix, `__binary_search` returns the leftmost position
whose pointed-to suffix string is greater than or equal to the needle,
which is the position of the lexicographically smallest suffix having the
needle as a true prefix.  (Without the no-exact-equal proviso the exact-hit
return of the loop may land on any position holding a suffix equal to the
needle; see the counterexample.) -/
theorem C4_amended_binary_search (docs : List (Nat × List Str)) (needle : Str)
    (hne : needle ∉ suffixStrings (suffixArrayFromDocs docs))
    (hpre : ∃ s ∈ suffixStrings (suffixArrayFromDocs docs), ∃ r, r ≠ [] ∧ s = needle ++ r) :
    binary_search (suffixStrings (suffixArrayFromDocs docs)) needle <
      (suffixStrings (suffixArrayFromDocs docs)).length ∧
    needle ≤ (suffixStrings (suffixArrayFromDocs docs)).getD
      (binary_search (suffixStrings (suffixArrayFromDocs docs)) needle) [] ∧
    (∀ j < binary_search (suffixStrings (suffixArrayFromDocs docs)) needle,
      (suffixStrings (suffixArrayFromDocs docs)).getD j [] < needle) ∧
    (∃ r, r ≠ [] ∧ (suffixStrings (suffixArrayFromDocs docs)).getD
      (binary_search (suffixStrings (suffixArrayFromDocs docs)) needle) [] = needle ++ r) := by
  set arr := suffixStrings (suffixArrayFromDocs docs) with harr
  have hs : List.Sorted (· ≤ ·) arr := sorted_suffixStrings docs
  obtain ⟨hI0, hIlen, hlow, hhigh⟩ :=
    bsearchGo_spec arr needle hs 0 ((arr.length : Int) - 1)
      (by omega) (by omega) (by omega)
      (by intro j hj hjlen; omega)
      (by intro j hj hjlen; omega)
  have hi_def : ((binary_search arr needle : Nat) : Int) =
      bsearchGo arr needle 0 ((arr.length : Int) - 1) := by
    rw [binary_search]
    exact Int.toNat_of_nonneg hI0
  set i := binary_search arr needle with hidef
  obtain ⟨s, hsmem, r, hrne, rfl⟩ := hpre
  obtain ⟨p, hp, hps⟩ := List.getElem_of_mem hsmem
  have hilen' : i ≤ arr.length := by omega
  have hjlt : ∀ j < i, arr.getD j [] < needle := by
    intro j hj
    have hjlen : j < arr.length := by omega
    have hle := hlow j (by omega) hjlen
    have hmem : arr.getD j [] ∈ arr := by
      rw [List.getD_eq_getElem arr [] hjlen]
      exact List.getElem_mem _
    exact lt_of_le_of_ne hle (fun hcontra => hne (hcontra ▸ hmem))
  have hple : needle ≤ arr.getD p [] := by
    rw [List.getD_eq_getElem arr [] hp, hps]
    exact str_le_of_append needle r
  have hip : i ≤ p := by
    by_contra hcon
    push_neg at hcon
    exact absurd hple (not_le.mpr (hjlt p hcon))
  have hilen : i < arr.length := Nat.lt_of_le_of_lt hip hp
  have hgei : needle ≤ arr.getD i [] := hhigh i (by omega) hilen
  have himem : arr.getD i [] ∈ arr := by
    rw [List.getD_eq_getElem arr [] hilen]
    exact List.getElem_mem _
  have hineq : arr.getD i [] ≠ needle := fun hcontra => hne (hcontra ▸ himem)
  have hpref : ∃ rr, arr.getD i [] = needle ++ rr := by
    by_contra hnp
    have hblock := str_gt_extensions needle (arr.getD i []) hgei hnp r
    have hle2 : arr.getD i [] ≤ arr.getD p [] := sorted_getD_le arr hs i p hip hp
    rw [List.getD_eq_getElem arr [] hp, hps] at hle2
    exact absurd hle2 (not_le.mpr hblock)
  obtain ⟨rr, hrr⟩ := hpref
  have hrrne : rr ≠ [] := by
    rintro rfl
    rw [List.append_nil] at hrr
    exact hineq hrr
  exact ⟨hilen, hgei, hjlt, rr, hrrne, hrr⟩

/-- Witness for the amended C4 at the one-document corpus `"a b"` with
needle `"a"`. -/
theorem C4_witness :
    ((['a'] : Str) ∉ suffixStrings (suffixArrayFromDocs [(0, [str "a b"])]) ∧
      (∃ s ∈ suffixStrings (suffixArrayFromDocs [(0, [str "a b"])]),
        ∃ r, r ≠ [] ∧ s = ['a'] ++ r)) ∧
    (binary_search (suffixStrings (suffixArrayFromDocs [(0, [str "a b"])])) ['a'] <
      (suffixStrings (suffixArrayFromDocs [(0, [str "a b"])])).length ∧
    ['a'] ≤ (suffixStrings (suffixArrayFromDocs [(0, [str "a b"])])).getD
      (binary_search (suffixStrings (suffixArrayFromDocs [(0, [str "a b"])])) ['a']) [] ∧
    (∀ j < binary_search (suffixStrings (suffixArrayFromDocs [(0, [str "a b"])])) ['a'],
      (suffixStrings (suffixArrayFromDocs [(0, [str "a b"])])).getD j [] < ['a']) ∧
    (∃ r, r ≠ [] ∧ (suffixStrings (suffixArrayFromDocs [(0, [str "a b"])])).getD
      (binary_search (suffixStrings (suffixArrayFromDocs [(0, [str "a b"])])) ['a']) [] =
        ['a'] ++ r)) :=
  ⟨⟨by decide, ⟨str "a b", by decide, [' ', 'b'], by decide, by decide⟩⟩,
    C4_amended_binary_search [(0, [str "a b"])] ['a'] (by decide)
      ⟨str "a b", by decide, [' ', 'b'], by decide, by decide⟩⟩

/-- C4 counterexample: over `docsC4` the sorted suffix strings are
`["a", "a", "a b", "b"]`; the needle `"a"` occurs as a true prefix of the
stored suffix `"a b"` (position 2), position 0 already holds a suffix
greater than or equal to the needle, yet `__binary_search` returns 1 — an
exact-hit position inside the run of suffixes equal to the needle, which
is neither the leftmost position with suffix ≥ needle nor the position of
a suffix having the needle as a true prefix. -/
theorem C4_counterexample :
    (∃ r, r ≠ ([] : Str) ∧
      (suffixStrings (suffixArrayFromDocs docsC4)).getD 2 [] = ['a'] ++ r) ∧
    (['a'] : Str) ≤ (suffixStrings (suffixArrayFromDocs docsC4)).getD 0 [] ∧
    ¬ (∃ r, r ≠ ([] : Str) ∧
      (suffixStrings (suffixArrayFromDocs docsC4)).getD 1 [] = ['a'] ++ r) ∧
    binary_search (suffixStrings (suffixArrayFromDocs docsC4)) ['a'] = 1 := by
  refine ⟨⟨[' ', 'b'], by decide, by decide⟩, by decide, ?_, ?_⟩
  · rintro ⟨r, hrne, heq⟩
    have h1 : (suffixStrings (suffixArrayFromDocs docsC4)).getD 1 [] = ['a'] := by decide
    rw [h1] at heq
    have hlen := congrArg List.length heq
    rw [List.length_append] at hlen
    simp only [List.length_singleton] at hlen
    exact hrne (List.eq_nil_of_length_eq_zero (by omega))
  · have harr : suffixStrings (suffixArrayFromDocs docsC4) =
        [['a'], ['a'], ['a', ' ', 'b'], ['b']] := by decide
    rw [binary_search, harr]
    simp [bsearchGo.eq_def]

/-! Claim C10: suffix pointers store document ids and are resolved by
indexing the haystack list with them. -/

/-- C10: every suffix pointer built by the suffix array carries the
originating document's `document_id` as its first component, and the
haystack lookups index the list by that component; when the corpus carries
document ids `0, 1, ..., n-1` in iteration order, every lookup is in range
and resolves to the haystack entry of the originating document (so
`doc_id_from_suffix` returns its id and `suffix_of_doc` reads its text).
For a corpus violating that precondition the pointer can exceed the
haystack length, as the second conjunct shows at the one-document corpus
with id 1. -/
theorem C10_suffix_pointers (docs : List (Nat × List Str))
    (hids : docs.map Prod.fst = List.range docs.length) :
    (∀ sfx ∈ (suffixArrayFromDocs docs).suffixes,
      ∃ e ∈ (suffixArrayFromDocs docs).haystack,
        sfx.1 = e.1 ∧
        sfx.1 < (suffixArrayFromDocs docs).haystack.length ∧
        (suffixArrayFromDocs docs).haystack.getD sfx.1 (0, []) = e ∧
        doc_id_from_suffix (suffixArrayFromDocs docs).haystack sfx = e.1 ∧
        suffix_of_doc (suffixArrayFromDocs docs).haystack sfx = e.2.drop sfx.2) ∧
    (∃ sfx ∈ (suffixArrayFromDocs [(1, [['a']])]).suffixes,
      ¬ sfx.1 < (suffixArrayFromDocs [(1, [['a']])]).haystack.length) := by
  constructor
  · intro sfx hsfx
    have hhay : (suffixArrayFromDocs docs).haystack = buildHaystack docs := rfl
    have hfst : (buildHaystack docs).map Prod.fst = List.range (buildHaystack docs).length := by
      rw [buildHaystack, List.map_map]
      have : (Prod.fst ∘ fun doc : Nat × List Str => (doc.1, normalizeSA (joinSpace doc.2))) =
          Prod.fst := rfl
      rw [this, List.length_map]
      exact hids
    have hmem : sfx ∈ buildSuffixesUnsorted (buildHaystack docs) := by
      have := hsfx
      rw [show (suffixArrayFromDocs docs).suffixes = buildSuffixes (buildHaystack docs) from rfl,
        buildSuffixes, List.mem_insertionSort] at this
      exact this
    rw [buildSuffixesUnsorted, List.mem_flatMap] at hmem
    obtain ⟨e, he, hmem2⟩ := hmem
    rw [List.mem_map] at hmem2
    obtain ⟨rng, -, rfl⟩ := hmem2
    obtain ⟨j, hj, hej⟩ := List.getElem_of_mem he
    have hefst : e.1 = j := by
      have h1 : ((buildHaystack docs).map Prod.fst)[j]? = some e.1 := by
        rw [List.getElem?_map, List.getElem?_eq_getElem hj, hej]
        rfl
      rw [hfst, List.getElem?_range hj] at h1
      exact (Option.some.injEq _ _ ▸ h1).symm
    refine ⟨e, he, rfl, ?_, ?_, ?_, ?_⟩
    · rw [hhay]
      simp only
      omega
    · rw [hhay]
      simp only
      rw [hefst, List.getD_eq_getElem (buildHaystack docs) (0, []) hj, hej]
    · rw [doc_id_from_suffix, hhay]
      simp only
      rw [hefst, List.getD_eq_getElem (buildHaystack docs) (0, []) hj, hej]
      exact hefst
    · rw [suffix_of_doc, hhay]
      simp only
      rw [hefst, List.getD_eq_getElem (buildHaystack docs) (0, []) hj, hej]
  · decide

/-! Claim C3: the result policy of `SuffixArray.evaluate`. -/

/-- The Sieve model returns at most `k` winners, best-first, and the
winners together with the rejected candidates are a permutation of the
sifted candidates with every winner scoring at least every reject. -/
theorem sieveWinners_spec (k : Nat) (entries : List (Nat × Nat)) :
    (sieveWinners k entries).length ≤ k ∧
    List.Sorted (fun a b : Nat × Nat => b.1 ≤ a.1) (sieveWinners k entries) ∧
    ∃ rest, (sieveWinners k entries ++ rest).Perm (entries.map fun p => (p.2, p.1)) ∧
      ∀ a ∈ sieveWinners k entries, ∀ b ∈ rest, b.1 ≤ a.1 := by
  haveI h1 : IsTotal (Nat × Nat) (fun a b => b.1 ≤ a.1) := ⟨fun a b => le_total b.1 a.1⟩
  haveI h2 : IsTrans (Nat × Nat) (fun a b => b.1 ≤ a.1) :=
    ⟨fun a b c hab hbc => le_trans hbc hab⟩
  have hsorted := List.sorted_insertionSort (fun a b : Nat × Nat => b.1 ≤ a.1)
    (entries.map fun p => (p.2, p.1))
  refine ⟨?_, ?_, ?_⟩
  · rw [sieveWinners, List.length_take]
    exact min_le_left _ _
  · exact List.Pairwise.take hsorted
  · refine ⟨((entries.map fun p => (p.2, p.1)).insertionSort fun a b => b.1 ≤ a.1).drop k,
      ?_, ?_⟩
    · rw [sieveWinners, List.take_append_drop]
      exact List.perm_insertionSort _ _
    · intro a ha b hb
      exact hsorted.rel_of_mem_take_of_mem_drop ha hb

/-- C3 (amended): for every suffix array, query and cap `k`, `evaluate`
with `hit_count = k` returns at most `k` results — the top-`k` matching
documents by occurrence count, best-first, every returned score at least
every dropped score — while `evaluate` without `hit_count` returns the
occurrence counts of all matching documents with no truncation, in
dictionary insertion (first-encounter) order, which is not necessarily
count-descending. -/
theorem C3_amended_evaluate (sa : SuffixArray) (query : Str) (k : Nat) :
    evaluate sa query none = ((doc_counts sa query).map fun p => (p.2, p.1)) ∧
    evaluate sa query (some k) = sieveWinners k (doc_counts sa query) ∧
    (evaluate sa query (some k)).length ≤ k ∧
    List.Sorted (fun a b : Nat × Nat => b.1 ≤ a.1) (evaluate sa query (some k)) ∧
    ∃ rest, (evaluate sa query (some k) ++ rest).Perm
        ((doc_counts sa query).map fun p => (p.2, p.1)) ∧
      ∀ a ∈ evaluate sa query (some k), ∀ b ∈ rest, b.1 ≤ a.1 := by
  have hnone : evaluate sa query none = ((doc_counts sa query).map fun p => (p.2, p.1)) := by
    rw [evaluate, doc_counts]
    by_cases hq : (normalizeSA query).length = 0
    · simp [hq]
    · simp only [hq, if_false]
      by_cases hidx : sa.suffixes.length ≤ binary_search (suffixStrings sa) (normalizeSA query)
      · simp [hidx]
      · simp [hidx]
  have hsome : evaluate sa query (some k) = sieveWinners k (doc_counts sa query) := by
    rw [evaluate, doc_counts]
    by_cases hq : (normalizeSA query).length = 0
    · simp [hq, sieveWinners]
    · simp only [hq, if_false]
      by_cases hidx : sa.suffixes.length ≤ binary_search (suffixStrings sa) (normalizeSA query)
      · simp [hidx, sieveWinners]
      · simp [hidx]
  obtain ⟨hlen, hsorted, rest, hperm, hdom⟩ := sieveWinners_spec k (doc_counts sa query)
  rw [hsome]
  exact ⟨hnone, rfl, hlen, hsorted, rest, hperm, hdom⟩

/-- C3 counterexample: over `docs3` (document 0 `"c a"`, document 1
`"a b a b"`) the query `"a"` matches document 0 once and document 1 twice;
without a `hit_count` option `evaluate` returns `[(1, 0), (2, 1)]` — the
insertion order of the scan, with the lower score first — so the results
are not ordered by occurrence count descending. -/
theorem C3_counterexample :
    evaluate (suffixArrayFromDocs docs3) (str "a") none = [(1, 0), (2, 1)] ∧
    ¬ List.Sorted (fun a b : Nat × Nat => b.1 ≤ a.1)
      (evaluate (suffixArrayFromDocs docs3) (str "a") none) := by
  have heval : evaluate (suffixArrayFromDocs docs3) (str "a") none = [(1, 0), (2, 1)] := by
    have hbs : binary_search (suffixStrings (suffixArrayFromDocs docs3)) ['a'] = 0 := by
      have harr : suffixStrings (suffixArrayFromDocs docs3) =
          [['a'], ['a', ' ', 'b'], ['a', ' ', 'b', ' ', 'a', ' ', 'b'], ['b'],
           ['b', ' ', 'a', ' ', 'b'], ['c', ' ', 'a']] := by decide
      rw [binary_search, harr]
      simp [bsearchGo.eq_def]
      decide
    have hsfx : (suffixArrayFromDocs docs3).suffixes =
        [(0, 2), (1, 4), (1, 0), (1, 6), (1, 2), (0, 0)] := by decide
    have hc0 : (['a'] : Str).isPrefixOf
        (suffix_of_doc (suffixArrayFromDocs docs3).haystack (0, 2)) = true := by decide
    have hc1 : (['a'] : Str).isPrefixOf
        (suffix_of_doc (suffixArrayFromDocs docs3).haystack (1, 4)) = true := by decide
    have hc2 : (['a'] : Str).isPrefixOf
        (suffix_of_doc (suffixArrayFromDocs docs3).haystack (1, 0)) = true := by decide
    have hc3 : (['a'] : Str).isPrefixOf
        (suffix_of_doc (suffixArrayFromDocs docs3).haystack (1, 6)) = false := by decide
    have hd0 : doc_id_from_suffix (suffixArrayFromDocs docs3).haystack (0, 2) = 0 := by decide
    have hd1 : doc_id_from_suffix (suffixArrayFromDocs docs3).haystack (1, 4) = 1 := by decide
    have hd2 : doc_id_from_suffix (suffixArrayFromDocs docs3).haystack (1, 0) = 1 := by decide
    have hcollect : collectLoop (suffixArrayFromDocs docs3) ['a'] 0 [] = [(0, 1), (1, 2)] := by
      simp [collectLoop.eq_def, hsfx, hc0, hc1, hc2, hc3, hd0, hd1, hd2, bump]
    rw [evaluate]
    have h0 : normalizeSA (str "a") = ['a'] := by decide
    simp only [h0, hbs, hsfx, hcollect]
    simp
  refine ⟨heval, ?_⟩
  rw [heval]
  decide

/-- Witness for C10 at the two-document corpus `docs06`, whose ids are
`0, 1` in iteration order. -/
theorem C10_witness :
    docs06.map Prod.fst = List.range docs06.length ∧
    ((∀ sfx ∈ (suffixArrayFromDocs docs06).suffixes,
      ∃ e ∈ (suffixArrayFromDocs docs06).haystack,
        sfx.1 = e.1 ∧
        sfx.1 < (suffixArrayFromDocs docs06).haystack.length ∧
        (suffixArrayFromDocs docs06).haystack.getD sfx.1 (0, []) = e ∧
        doc_id_from_suffix (suffixArrayFromDocs docs06).haystack sfx = e.1 ∧
        suffix_of_doc (suffixArrayFromDocs docs06).haystack sfx = e.2.drop sfx.2) ∧
    (∃ sfx ∈ (suffixArrayFromDocs [(1, [['a']])]).suffixes,
      ¬ sfx.1 < (suffixArrayFromDocs [(1, [['a']])]).haystack.length)) :=
  ⟨by decide, C10_suffix_pointers docs06 (by decide)⟩

end In3120
